import Mathlib

/-!
Verification of the retrieval/ranking core of `msc-super-friend`.

Shallow embedding conventions:
* Python `float` scores are modelled as `ℚ` (exact arithmetic); the float
  literal `1e-9` of `math.isclose` is modelled as the rational `1 / 10^9`.
* Python strings are Lean `String`s; `s.lower()` is `pyLower`, the substring
  test `needle in hay` is `pyIn`, `str.strip()` is `pyStrip`.
* Exceptions are modelled with `Except String` (raising = `.error msg`), and
  the persisted artifacts of the vector store as explicit state passed in and
  out, so that "nothing was written" is visible in the return value.
* numpy arrays are `List (List ℚ)`; `ndarray.ndim == 2` is `ndim2`.
-/

/-- `needle.isPrefixOf hay` on character lists, written out so the
development is self-contained. -/
def leadMatch : List Char → List Char → Bool
  | [], _ => true
  | _ :: _, [] => false
  | a :: as, b :: bs => a == b && leadMatch as bs

/-- Occurrence of `needle` anywhere in `hay` (Python `needle in hay`). -/
def pyInSub (needle : List Char) : List Char → Bool
  | [] => leadMatch needle []
  | c :: t => leadMatch needle (c :: t) || pyInSub needle t

/-- Python `needle in hay` for strings. -/
def pyIn (needle hay : String) : Bool :=
  pyInSub needle.toList hay.toList

/-- Python `s.lower()` (ASCII-faithful), written on the character data so
that concrete instances evaluate by `decide`. -/
def pyLower (s : String) : String :=
  String.mk (s.data.map Char.toLower)

/-- From `backend/rag/retrieve.py`, `_route_domain(question)`:
scans `question.lower()` against the routing keyword table, first match
wins, default `"general"`. -/
def _route_domain (question : String) : String :=
  let text := pyLower question
  if ["materiel", "logistics", "dmlss", "supply", "inventory", "medlog"].any
      (fun k => pyIn k text) then "med_log"
  else if ["access", "referral", "empanel", "tricare", "beneficiary", "appointment"].any
      (fun k => pyIn k text) then "access_to_care"
  else if ["manpower", "umd", "position", "classification", "hiring"].any
      (fun k => pyIn k text) then "manpower"
  else if ["dress", "groom", "leadership", "conduct", "morale", "customs", "courtesies"].any
      (fun k => pyIn k text) then "leadership"
  else if ["quality", "peer review", "patient safety", "adverse event", "credentialing"].any
      (fun k => pyIn k text) then "quality"
  else if ["facility", "disaster", "fire safety", "mass casualty", "emergency management"].any
      (fun k => pyIn k text) then "facilities"
  else "general"

/-- From `backend/rag/ingest.py`, `_infer_domain(title, source_id)`:
scans `f"{title} {source_id}".lower()` against the ingest keyword table,
first match wins, default `"general"`. -/
def _infer_domain (title source_id : String) : String :=
  let text := pyLower (title ++ " " ++ source_id)
  if ["logistics", "materiel", "medlog", "dmlss"].any
      (fun k => pyIn k text) then "med_log"
  else if ["tricare", "patient administration", "access", "referral", "empanel"].any
      (fun k => pyIn k text) then "access_to_care"
  else if ["manpower", "position", "umd", "force structure"].any
      (fun k => pyIn k text) then "manpower"
  else if ["dress", "leadership", "morale", "conduct", "pme"].any
      (fun k => pyIn k text) then "leadership"
  else if ["quality", "peer review", "patient safety", "risk management"].any
      (fun k => pyIn k text) then "quality"
  else if ["facility", "disaster", "emergency", "fire safety"].any
      (fun k => pyIn k text) then "facilities"
  else "general"

/-- The keywords of `_route_domain`'s table, in scan order. -/
def routeKeywords : List String :=
  ["materiel", "logistics", "dmlss", "supply", "inventory", "medlog",
   "access", "referral", "empanel", "tricare", "beneficiary", "appointment",
   "manpower", "umd", "position", "classification", "hiring",
   "dress", "groom", "leadership", "conduct", "morale", "customs", "courtesies",
   "quality", "peer review", "patient safety", "adverse event", "credentialing",
   "facility", "disaster", "fire safety", "mass casualty", "emergency management"]

/-- The keywords of `_infer_domain`'s table, in scan order. -/
def inferKeywords : List String :=
  ["logistics", "materiel", "medlog", "dmlss",
   "tricare", "patient administration", "access", "referral", "empanel",
   "manpower", "position", "umd", "force structure",
   "dress", "leadership", "morale", "conduct", "pme",
   "quality", "peer review", "patient safety", "risk management",
   "facility", "disaster", "emergency", "fire safety"]

/-- The serving layer's `Citation` model (`backend/main.py`); only the fields
the grounding gate touches are given structure, scores as exact rationals. -/
structure Citation where
  evid_id : String
  title : String
  excerpt : String
  url : Option String := none
  local_path : Option String := none
  page : Option Int := none
  sect : Option String := none         -- Python field `section` (Lean keyword)
  subsect : Option String := none      -- Python field `subsection`
  pub : Option String := none
  domain : Option String := none
  doc_type : Option String := none
  score : ℚ
deriving DecidableEq, Repr

/-- After `[E` and one digit: accept further digits then a closing `]`
(the `\d*\]` tail of the marker pattern). -/
def digitTail : List Char → Bool
  | [] => false
  | c :: rest => if c == ']' then true else c.isDigit && digitTail rest

/-- Does the marker pattern `\[E\d+\]` match at the head of the list? -/
def markerHead : List Char → Bool
  | '[' :: 'E' :: c :: rest => c.isDigit && digitTail rest
  | _ => false

/-- From `backend/main.py`, `_answer_has_citation_markers(answer)`:
`re.search` of `\[E\d+\]` over the answer (with `answer or ""`). -/
def _answer_has_citation_markers (answer : String) : Bool :=
  go answer.toList
where
  go : List Char → Bool
    | [] => false
    | c :: t => markerHead (c :: t) || go t

/-- Python `max(xs, default=0.0)`: the default only applies to an empty
sequence. -/
def pyMaxD0 : List ℚ → ℚ
  | [] => 0
  | v :: vs => vs.foldl max v

/-- From `backend/main.py`, `_is_grounded(evidence, answer, min_top_score)`. -/
def _is_grounded (evidence : List Citation) (answer : String)
    (min_top_score : ℚ) : Bool :=
  if evidence.isEmpty then false
  else if pyMaxD0 (evidence.map (·.score)) < min_top_score then false
  else _answer_has_citation_markers answer

/-- A concrete citation used by witnesses. -/
def sampleCitation : Citation :=
  { evid_id := "E1", title := "t", excerpt := "x", score := 1 }

/-- C1: the grounding gate returns false on an empty evidence list; returns
false whenever the highest evidence score (Python `max(..., default=0.0)`)
is below `min_top_score`; otherwise it returns exactly the inline-marker
test on the answer; and it never returns true on empty evidence or on an
answer with zero `[E<digits>]` markers, regardless of scores. -/
theorem grounding_gate_spec (evidence : List Citation) (answer : String) (m : ℚ) :
    (evidence = [] → _is_grounded evidence answer m = false) ∧
    (pyMaxD0 (evidence.map (·.score)) < m → _is_grounded evidence answer m = false) ∧
    (evidence ≠ [] → ¬ pyMaxD0 (evidence.map (·.score)) < m →
      _is_grounded evidence answer m = _answer_has_citation_markers answer) ∧
    (_is_grounded evidence answer m = true →
      evidence ≠ [] ∧ _answer_has_citation_markers answer = true) := by
  refine ⟨?_, ?_, ?_, ?_⟩
  · intro h
    simp [_is_grounded, h]
  · intro h
    by_cases he : evidence.isEmpty <;> simp [_is_grounded, he, h]
  · intro hne hs
    have he : evidence.isEmpty = false := by
      simpa [List.isEmpty_iff] using hne
    simp [_is_grounded, he, hs]
  · intro h
    by_cases he : evidence.isEmpty
    · simp [_is_grounded, he] at h
    · refine ⟨by simpa [List.isEmpty_iff] using he, ?_⟩
      by_cases hs : pyMaxD0 (evidence.map (·.score)) < m
      · simp [_is_grounded, he, hs] at h
      · simpa [_is_grounded, he, hs] using h

/-- Witness for `grounding_gate_spec` at concrete inputs. -/
theorem grounding_gate_spec_witness :
    _is_grounded [] "x [E1]" (0 : ℚ) = false ∧
    _is_grounded [sampleCitation] "cited [E1]" (0 : ℚ) =
      _answer_has_citation_markers "cited [E1]" := by
  refine ⟨(grounding_gate_spec [] "x [E1]" 0).1 rfl, ?_⟩
  exact (grounding_gate_spec [sampleCitation] "cited [E1]" 0).2.2.1
    (by decide) (by decide)

/-- C9 counterexample: the routing lexicon and the ingest-time inference
lexicon differ; on the input `"supply"` the router answers `med_log` while
the metadata extractor infers `general`. -/
theorem domain_lexicons_differ_on_supply :
    _route_domain "supply" = "med_log" ∧
    _infer_domain "supply" "" = "general" ∧
    _route_domain "supply" ≠ _infer_domain "supply" "" := by
  refine ⟨by decide, by decide, by decide⟩

/-- Every keyword scanned by `_route_domain` is in `routeKeywords`, table
order preserved. -/
theorem route_domain_general_of_no_keyword (q : String)
    (h : ∀ k ∈ routeKeywords, pyIn k (pyLower q) = false) :
    _route_domain q = "general" := by
  have hc : ∀ L : List String, (∀ k ∈ L, k ∈ routeKeywords) →
      ¬ (L.any (fun k => pyIn k (pyLower q)) = true) := by
    intro L hsub hany
    rcases List.any_eq_true.mp hany with ⟨k, hkL, hk⟩
    rw [h k (hsub k hkL)] at hk
    exact Bool.false_ne_true hk
  unfold _route_domain
  rw [if_neg (hc _ (by decide)), if_neg (hc _ (by decide)),
    if_neg (hc _ (by decide)), if_neg (hc _ (by decide)),
    if_neg (hc _ (by decide)), if_neg (hc _ (by decide))]

/-- Same for `_infer_domain` with an empty source identifier. -/
theorem infer_domain_general_of_no_keyword (q : String)
    (h : ∀ k ∈ inferKeywords, pyIn k (pyLower (q ++ " ")) = false) :
    _infer_domain q "" = "general" := by
  have hq : (q ++ " " ++ "" : String) = q ++ " " := by simp
  have hc : ∀ L : List String, (∀ k ∈ L, k ∈ inferKeywords) →
      ¬ (L.any (fun k => pyIn k (pyLower (q ++ " " ++ ""))) = true) := by
    intro L hsub hany
    rcases List.any_eq_true.mp hany with ⟨k, hkL, hk⟩
    rw [hq, h k (hsub k hkL)] at hk
    exact Bool.false_ne_true hk
  unfold _infer_domain
  rw [if_neg (hc _ (by decide)), if_neg (hc _ (by decide)),
    if_neg (hc _ (by decide)), if_neg (hc _ (by decide)),
    if_neg (hc _ (by decide)), if_neg (hc _ (by decide))]

/-- C9 amended: the router and the metadata extractor use similar but
distinct keyword lexicons (see `domain_lexicons_differ_on_supply`); on any
input in which no keyword of either lexicon occurs, both fall through to
`"general"` and therefore agree. -/
theorem domain_routing_agrees_on_keyword_free (q : String)
    (hr : ∀ k ∈ routeKeywords, pyIn k (pyLower q) = false)
    (hi : ∀ k ∈ inferKeywords, pyIn k (pyLower (q ++ " ")) = false) :
    _route_domain q = "general" ∧ _infer_domain q "" = "general" ∧
    _route_domain q = _infer_domain q "" := by
  have h1 := route_domain_general_of_no_keyword q hr
  have h2 := infer_domain_general_of_no_keyword q hi
  exact ⟨h1, h2, h1.trans h2.symm⟩

/-- Witness for `domain_routing_agrees_on_keyword_free` at `"hello there"`. -/
theorem domain_routing_agrees_witness :
    _route_domain "hello there" = "general" ∧
    _infer_domain "hello there" "" = "general" ∧
    _route_domain "hello there" = _infer_domain "hello there" "" :=
  domain_routing_agrees_on_keyword_free "hello there" (by decide) (by decide)

/-- `ChunkRecord` from `backend/rag/vectors.py` (the Passage Record).
The Python fields `section`/`subsection` are Lean keywords and appear here
as `sect`/`subsect`. -/
structure ChunkRecord where
  chunk_id : String
  source_id : String
  source_type : String
  title : String
  text : String
  url : Option String := none
  local_path : Option String := none
  page : Option Int := none
  chunk_index : Option Nat := none
  sect : Option String := none
  subsect : Option String := none
  pub : Option String := none
  domain : Option String := none
  doc_type : Option String := none
  effective_date : Option String := none
deriving DecidableEq, Repr, Inhabited

/-- `_Candidate` from `backend/rag/retrieve.py`; its Python field `rec`
clashes with Lean's generated recursor name and appears here as `record`. -/
structure Candidate where
  record : ChunkRecord
  vector_score : ℚ := 0
  lexical_score : ℚ := 0
  rerank_score : ℚ := 0
  combined_score : ℚ := 0
deriving DecidableEq, Repr, Inhabited

/-- `Evidence` from `backend/rag/retrieve.py`. -/
structure Evidence where
  evid_id : String
  score : ℚ
  title : String
  excerpt : String
  source_type : String
  source_id : String
  url : Option String := none
  local_path : Option String := none
  page : Option Int := none
  sect : Option String := none
  subsect : Option String := none
  pub : Option String := none
  domain : Option String := none
  doc_type : Option String := none
  effective_date : Option String := none
deriving DecidableEq, Repr

/-- Python `s.strip()` on character data. -/
def pyStripL (l : List Char) : List Char :=
  ((l.dropWhile Char.isWhitespace).reverse.dropWhile Char.isWhitespace).reverse

/-- Python `s.strip()`. -/
def pyStrip (s : String) : String :=
  String.mk (pyStripL s.data)

/-- Python `s.rstrip()`. -/
def pyRStrip (s : String) : String :=
  String.mk ((s.data.reverse.dropWhile Char.isWhitespace).reverse)

/-- Excerpt truncation in `_build_evidence`:
`excerpt = (text or "").strip()`, then if longer than 900 characters,
`excerpt[:900].rstrip() + "..."`. -/
def excerptOf (text : String) : String :=
  let e := pyStrip text
  if e.data.length > 900 then
    pyRStrip (String.mk (e.data.take 900)) ++ "..."
  else e

/-- The skip condition `allowed_sources and rec.source_id not in
allowed_sources` of `_build_evidence`, with Python truthiness: `None` and
the empty list are both falsy, so neither filters. -/
def allowedBlocks (allowed : Option (List String)) (sid : String) : Bool :=
  match allowed with
  | none => false
  | some l => !l.isEmpty && !(l.contains sid)

/-- The selection loop of `_build_evidence`: walk the candidates, skip
blocked ones, append, and break once `len(selected) >= top_k` (checked
after the append, Python-faithfully). `selLen` is `len(selected)`. -/
def selectLoop (allowed : Option (List String)) (top_k : Nat) :
    Nat → List Candidate → List Candidate
  | _, [] => []
  | selLen, c :: rest =>
    if allowedBlocks allowed c.record.source_id then
      selectLoop allowed top_k selLen rest
    else if selLen + 1 ≥ top_k then [c]
    else c :: selectLoop allowed top_k (selLen + 1) rest

/-- One `Evidence` entry of `_build_evidence` (`i` is the 1-based position
from `enumerate(selected, start=1)`). -/
def evidenceOf (i : Nat) (c : Candidate) : Evidence :=
  { evid_id := "E" ++ toString i
    score := c.combined_score
    title := c.record.title
    excerpt := excerptOf c.record.text
    source_type := c.record.source_type
    source_id := c.record.source_id
    url := c.record.url
    local_path := c.record.local_path
    page := c.record.page
    sect := c.record.sect
    subsect := c.record.subsect
    pub := c.record.pub
    domain := c.record.domain
    doc_type := c.record.doc_type
    effective_date := c.record.effective_date }

/-- `_build_evidence(candidates, top_k, allowed_sources)` from
`backend/rag/retrieve.py`. -/
def _build_evidence (candidates : List Candidate) (top_k : Nat)
    (allowed_sources : Option (List String)) :
    List Evidence × List Candidate :=
  let selected := selectLoop allowed_sources top_k 0 candidates
  (selected.enum.map (fun p => evidenceOf (p.1 + 1) p.2), selected)

/-- Every candidate the selection loop keeps passed the allow-list check. -/
theorem selectLoop_not_blocked (allowed : Option (List String)) (top_k : Nat) :
    ∀ (selLen : Nat) (cands : List Candidate) (c : Candidate),
      c ∈ selectLoop allowed top_k selLen cands →
      allowedBlocks allowed c.record.source_id = false := by
  intro selLen cands
  induction cands generalizing selLen with
  | nil => intro c hc; simp [selectLoop] at hc
  | cons a rest ih =>
    intro c hc
    by_cases hb : allowedBlocks allowed a.record.source_id
    · exact ih _ c (by simpa [selectLoop, hb] using hc)
    · by_cases hk : selLen + 1 ≥ top_k
      · have : c = a := by simpa [selectLoop, hb, hk] using hc
        simpa [this] using hb
      · rcases (by simpa [selectLoop, hb, hk] using hc : c = a ∨ _) with h | h
        · simpa [h] using hb
        · exact ih _ c h

/-- The selection loop keeps at most `top_k - selLen` candidates when the
running length is still below `top_k`. -/
theorem selectLoop_length_le (allowed : Option (List String)) (top_k : Nat) :
    ∀ (cands : List Candidate) (selLen : Nat), selLen < top_k →
      (selectLoop allowed top_k selLen cands).length ≤ top_k - selLen := by
  intro cands
  induction cands with
  | nil => intro selLen h; simp [selectLoop]
  | cons a rest ih =>
    intro selLen h
    by_cases hb : allowedBlocks allowed a.record.source_id
    · simpa [selectLoop, hb] using ih selLen h
    · by_cases hk : selLen + 1 ≥ top_k
      · simpa [selectLoop, hb, hk] using Nat.le_sub_of_add_le (by omega)
      · have hrec := ih (selLen + 1) (by omega)
        simp only [selectLoop, hb, hk, if_false, List.length_cons]
        simp only [Bool.false_eq_true, if_false, List.length_cons]
        omega

/-- C8 amended: for every candidate list, every `top_k ≥ 1` and every
*non-empty* supplied allow-list, each produced Evidence Item's source
identifier is a member of the allow-list, and at most `top_k` items are
produced. (With an empty supplied list the filter is bypassed — Python
truthiness — and with `top_k = 0` one item is still produced, because the
break is checked only after the first append; see the counterexample.) -/
theorem build_evidence_allowlist (candidates : List Candidate) (top_k : Nat)
    (allowed : List String) (hne : allowed ≠ []) (hk : 1 ≤ top_k) :
    (∀ e ∈ (_build_evidence candidates top_k (some allowed)).1,
      e.source_id ∈ allowed) ∧
    (_build_evidence candidates top_k (some allowed)).1.length ≤ top_k := by
  constructor
  · intro e he
    simp only [_build_evidence, List.mem_map] at he
    rcases he with ⟨p, hp, rfl⟩
    have hmem : p.2 ∈ selectLoop (some allowed) top_k 0 candidates := by
      have := List.mem_enum_iff_getElem?.mp hp
      exact List.getElem?_mem this
    have hblock := selectLoop_not_blocked (some allowed) top_k 0 candidates p.2 hmem
    have hempty : allowed.isEmpty = false := by
      cases allowed with
      | nil => exact absurd rfl hne
      | cons x xs => rfl
    simp only [allowedBlocks, hempty] at hblock
    simp only [Bool.not_false, Bool.true_and, Bool.not_eq_false'] at hblock
    have : (evidenceOf (p.1 + 1) p.2).source_id = p.2.record.source_id := rfl
    rw [this]
    exact List.mem_of_elem_eq_true hblock
  · have hlen := selectLoop_length_le (some allowed) top_k candidates 0 (by omega)
    simp only [_build_evidence, List.length_map, List.enum_length]
    omega

/-- Witness for `build_evidence_allowlist` at a concrete input. -/
def sampleRecord : ChunkRecord :=
  { chunk_id := "c1", source_id := "s", source_type := "web",
    title := "t", text := "body" }

/-- A concrete candidate used by witnesses and counterexamples. -/
def sampleCandidate : Candidate := { record := sampleRecord }

/-- Witness for `build_evidence_allowlist`. -/
theorem build_evidence_allowlist_witness :
    (∀ e ∈ (_build_evidence [sampleCandidate] 2 (some ["s"])).1,
      e.source_id ∈ ["s"]) ∧
    (_build_evidence [sampleCandidate] 2 (some ["s"])).1.length ≤ 2 :=
  build_evidence_allowlist [sampleCandidate] 2 ["s"] (by decide) (by decide)

/-- C8 counterexample: with the *empty* allow-list supplied, the filter is
bypassed (Python truthiness), so an Evidence Item whose source is not in
that (empty) set is produced; and with `top_k = 0` one item is produced
(the break is only checked after the first append), exceeding `top_k`. -/
theorem build_evidence_allowlist_counterexample :
    ((_build_evidence [sampleCandidate] 1 (some [])).1.map (·.source_id))
        = ["s"] ∧
    ("s" : String) ∉ ([] : List String) ∧
    (_build_evidence [sampleCandidate] 0 (some ["s"])).1.length = 1 := by
  refine ⟨by decide, by decide, by decide⟩

/-- The selection loop treats an empty supplied allow-list exactly as no
allow-list: both conditions are falsy in Python. -/
theorem selectLoop_empty_eq_none (top_k : Nat) :
    ∀ (selLen : Nat) (cands : List Candidate),
      selectLoop (some []) top_k selLen cands =
        selectLoop none top_k selLen cands := by
  intro selLen cands
  induction cands generalizing selLen with
  | nil => rfl
  | cons a rest ih => simp [selectLoop, allowedBlocks, ih]

/-- C10: supplying `allowed_sources = []` applies no filtering at all — the
full output of `_build_evidence` (evidence and selected candidates) is
identical to the output with `allowed_sources = None`. -/
theorem build_evidence_empty_allowlist (candidates : List Candidate)
    (top_k : Nat) :
    _build_evidence candidates top_k (some []) =
      _build_evidence candidates top_k none := by
  unfold _build_evidence
  rw [selectLoop_empty_eq_none]

/-- Python `min(xs)` for the non-empty lists `_normalize_scores` sees
(`0` is a dummy for `[]`, which the code never reaches). -/
def pyMinD0 : List ℚ → ℚ
  | [] => 0
  | v :: vs => vs.foldl min v

/-- `math.isclose(a, b)` with its default tolerances `rel_tol=1e-9`,
`abs_tol=0.0`, over exact rationals. -/
def isclose (a b : ℚ) : Bool :=
  |a - b| ≤ max ((1 / 1000000000) * max |a| |b|) 0

/-- `_normalize_scores` from `backend/rag/retrieve.py`, as a pure function
on the list of raw scores of one attribute (the Python mutates the
candidates in place; the computation per value is identical). -/
def _normalize_scores (values : List ℚ) : List ℚ :=
  match values with
  | [] => []
  | v :: vs =>
    let lo := vs.foldl min v
    let hi := vs.foldl max v
    if isclose lo hi then (v :: vs).map (fun _ => if hi > 0 then 1 else 0)
    else (v :: vs).map (fun x => (x - lo) / (hi - lo))

theorem foldl_min_le_acc (vs : List ℚ) : ∀ a : ℚ, vs.foldl min a ≤ a := by
  induction vs with
  | nil => intro a; simp
  | cons b t ih =>
    intro a
    calc t.foldl min (min a b) ≤ min a b := ih (min a b)
    _ ≤ a := min_le_left a b

theorem foldl_min_le_mem (vs : List ℚ) :
    ∀ (a : ℚ) (x : ℚ), x ∈ vs → vs.foldl min a ≤ x := by
  induction vs with
  | nil => intro a x hx; simp at hx
  | cons b t ih =>
    intro a x hx
    rcases List.mem_cons.mp hx with rfl | hx
    · calc t.foldl min (min a x) ≤ min a x := foldl_min_le_acc t _
      _ ≤ x := min_le_right a x
    · exact ih (min a b) x hx

theorem foldl_min_mem (vs : List ℚ) :
    ∀ a : ℚ, vs.foldl min a = a ∨ vs.foldl min a ∈ vs := by
  induction vs with
  | nil => intro a; left; rfl
  | cons b t ih =>
    intro a
    rcases ih (min a b) with h | h
    · rcases min_choice a b with hm | hm
      · left; show t.foldl min (min a b) = a; rw [h, hm]
      · right; show t.foldl min (min a b) ∈ b :: t
        rw [h, hm]; exact List.mem_cons_self b t
    · right; exact List.mem_cons_of_mem b h

theorem foldl_max_acc_le (vs : List ℚ) : ∀ a : ℚ, a ≤ vs.foldl max a := by
  induction vs with
  | nil => intro a; simp
  | cons b t ih =>
    intro a
    calc a ≤ max a b := le_max_left a b
    _ ≤ t.foldl max (max a b) := ih (max a b)

theorem foldl_max_mem_le (vs : List ℚ) :
    ∀ (a : ℚ) (x : ℚ), x ∈ vs → x ≤ vs.foldl max a := by
  induction vs with
  | nil => intro a x hx; simp at hx
  | cons b t ih =>
    intro a x hx
    rcases List.mem_cons.mp hx with rfl | hx
    · calc x ≤ max a x := le_max_right a x
      _ ≤ t.foldl max (max a x) := foldl_max_acc_le t _
    · exact ih (max a b) x hx

theorem foldl_max_mem (vs : List ℚ) :
    ∀ a : ℚ, vs.foldl max a = a ∨ vs.foldl max a ∈ vs := by
  induction vs with
  | nil => intro a; left; rfl
  | cons b t ih =>
    intro a
    rcases ih (max a b) with h | h
    · rcases max_choice a b with hm | hm
      · left; show t.foldl max (max a b) = a; rw [h, hm]
      · right; show t.foldl max (max a b) ∈ b :: t
        rw [h, hm]; exact List.mem_cons_self b t
    · right; exact List.mem_cons_of_mem b h

/-- `isclose` is reflexive: the relative-tolerance bound is nonnegative. -/
theorem isclose_self (a : ℚ) : isclose a a = true := by
  simp only [isclose, decide_eq_true_eq, sub_self, abs_zero]
  exact le_max_right _ 0

theorem pyMinD0_mem (l : List ℚ) (h : l ≠ []) : pyMinD0 l ∈ l := by
  cases l with
  | nil => exact absurd rfl h
  | cons v vs =>
    rcases foldl_min_mem vs v with hm | hm
    · rw [pyMinD0, hm]; exact List.mem_cons_self v vs
    · exact List.mem_cons_of_mem v hm

theorem pyMinD0_le (l : List ℚ) : ∀ x ∈ l, pyMinD0 l ≤ x := by
  cases l with
  | nil => intro x hx; simp at hx
  | cons v vs =>
    intro x hx
    rcases List.mem_cons.mp hx with rfl | hx
    · exact foldl_min_le_acc vs x
    · exact foldl_min_le_mem vs v x hx

theorem pyMaxD0_mem (l : List ℚ) (h : l ≠ []) : pyMaxD0 l ∈ l := by
  cases l with
  | nil => exact absurd rfl h
  | cons v vs =>
    rcases foldl_max_mem vs v with hm | hm
    · rw [pyMaxD0, hm]; exact List.mem_cons_self v vs
    · exact List.mem_cons_of_mem v hm

theorem pyMaxD0_ge (l : List ℚ) : ∀ x ∈ l, x ≤ pyMaxD0 l := by
  cases l with
  | nil => intro x hx; simp at hx
  | cons v vs =>
    intro x hx
    rcases List.mem_cons.mp hx with rfl | hx
    · exact foldl_max_acc_le vs x
    · exact foldl_max_mem_le vs v x hx

theorem pyMinD0_eq_of (l : List ℚ) (m : ℚ) (hne : l ≠ []) (hm : m ∈ l)
    (hle : ∀ y ∈ l, m ≤ y) : pyMinD0 l = m :=
  le_antisymm (pyMinD0_le l m hm) (hle _ (pyMinD0_mem l hne))

theorem pyMaxD0_eq_of (l : List ℚ) (m : ℚ) (hne : l ≠ []) (hm : m ∈ l)
    (hge : ∀ y ∈ l, y ≤ m) : pyMaxD0 l = m :=
  le_antisymm (hge _ (pyMaxD0_mem l hne)) (pyMaxD0_ge l m hm)

/-- C6 amended: for a non-empty all-equal score list, every score is mapped
to `1` when the shared value is positive and to `0` otherwise; and when the
extremes are *not within `math.isclose` tolerance* (relative `1e-9`), the
normalized scores have minimum exactly `0` and maximum exactly `1`.
(Distinctness alone is not enough: two distinct values within tolerance hit
the degenerate branch, see the counterexample.) -/
theorem normalize_scores_spec (values : List ℚ) (c : ℚ) :
    (values ≠ [] → (∀ x ∈ values, x = c) →
      _normalize_scores values = values.map (fun _ => if c > 0 then 1 else 0)) ∧
    (values ≠ [] → isclose (pyMinD0 values) (pyMaxD0 values) = false →
      pyMinD0 (_normalize_scores values) = 0 ∧
      pyMaxD0 (_normalize_scores values) = 1) := by
  constructor
  · intro hne hall
    cases values with
    | nil => exact absurd rfl hne
    | cons v vs =>
      have hv : v = c := hall v (List.mem_cons_self v vs)
      have hvs : ∀ x ∈ vs, x = c := fun x hx => hall x (List.mem_cons_of_mem v hx)
      have hlo : vs.foldl min v = c := by
        rcases foldl_min_mem vs v with h | h
        · rw [h, hv]
        · exact hvs _ h
      have hhi : vs.foldl max v = c := by
        rcases foldl_max_mem vs v with h | h
        · rw [h, hv]
        · exact hvs _ h
      simp only [_normalize_scores, hlo, hhi, isclose_self, if_true]
  · intro hne hni
    cases values with
    | nil => exact absurd rfl hne
    | cons v vs =>
      set lo := vs.foldl min v with hlo
      set hi := vs.foldl max v with hhi
      have hmin : pyMinD0 (v :: vs) = lo := rfl
      have hmax : pyMaxD0 (v :: vs) = hi := rfl
      have hcl : isclose lo hi = false := by rw [← hmin, ← hmax]; exact hni
      have hlt : lo < hi := by
        rcases lt_or_le lo hi with h | h
        · exact h
        · have hle : lo ≤ hi := by
            calc lo ≤ v := foldl_min_le_acc vs v
            _ ≤ hi := foldl_max_acc_le vs v
          have : lo = hi := le_antisymm hle h
          rw [this, isclose_self] at hcl
          exact absurd hcl (by simp)
      have hspan : 0 < hi - lo := sub_pos.mpr hlt
      have hout : _normalize_scores (v :: vs) =
          (v :: vs).map (fun x => (x - lo) / (hi - lo)) := by
        simp only [_normalize_scores, ← hlo, ← hhi, hcl, Bool.false_eq_true,
          if_false]
      have hnonneg : ∀ y ∈ _normalize_scores (v :: vs), 0 ≤ y := by
        rw [hout]
        intro y hy
        rcases List.mem_map.mp hy with ⟨x, hx, rfl⟩
        exact div_nonneg (sub_nonneg.mpr (pyMinD0_le (v :: vs) x hx))
          (le_of_lt hspan)
      have hle1 : ∀ y ∈ _normalize_scores (v :: vs), y ≤ 1 := by
        rw [hout]
        intro y hy
        rcases List.mem_map.mp hy with ⟨x, hx, rfl⟩
        exact (div_le_one hspan).mpr
          (sub_le_sub_right (pyMaxD0_ge (v :: vs) x hx) lo)
      have hnel : _normalize_scores (v :: vs) ≠ [] := by
        rw [hout]; simp
      constructor
      · refine pyMinD0_eq_of _ 0 hnel ?_ hnonneg
        rw [hout]
        have : (0 : ℚ) = (lo - lo) / (hi - lo) := by
          rw [sub_self, zero_div]
        rw [this]
        exact List.mem_map_of_mem _ (by rw [← hmin]; exact pyMinD0_mem _ (by simp))
      · refine pyMaxD0_eq_of _ 1 hnel ?_ hle1
        rw [hout]
        have : (1 : ℚ) = (hi - lo) / (hi - lo) := by
          rw [div_self (ne_of_gt hspan)]
        rw [this]
        exact List.mem_map_of_mem _ (by rw [← hmax]; exact pyMaxD0_mem _ (by simp))

/-- C6 counterexample: `10^12` and `10^12 + 1` are distinct, but they are
within `math.isclose`'s relative tolerance, so `_normalize_scores` takes
the degenerate branch and maps both to `1`: the normalized minimum is not
`0`. -/
theorem normalize_scores_counterexample :
    ((10^12 : ℚ)) ≠ 10^12 + 1 ∧
    _normalize_scores [10^12, 10^12 + 1] = [1, 1] ∧
    pyMinD0 (_normalize_scores [10^12, 10^12 + 1]) ≠ 0 := by
  refine ⟨by norm_num, ?_, ?_⟩
  · simp only [_normalize_scores, List.foldl, min_def, max_def]
    norm_num [isclose]
  · simp only [_normalize_scores, List.foldl, min_def, max_def]
    norm_num [isclose, pyMinD0]

/-- Witness for `normalize_scores_spec` at `[2, 2]` and `[0, 4]`. -/
theorem normalize_scores_spec_witness :
    _normalize_scores [2, 2] = [1, 1] ∧
    pyMinD0 (_normalize_scores [0, 4]) = 0 ∧
    pyMaxD0 (_normalize_scores [0, 4]) = 1 := by
  refine ⟨(normalize_scores_spec [2, 2] 2).1 (by simp) (by simp), ?_, ?_⟩
  · exact ((normalize_scores_spec [0, 4] 0).2 (by simp)
      (by norm_num [isclose, pyMinD0, pyMaxD0, min_def, max_def])).1
  · exact ((normalize_scores_spec [0, 4] 0).2 (by simp)
      (by norm_num [isclose, pyMinD0, pyMaxD0, min_def, max_def])).2

/-- numpy `arr.ndim == 2` for a row-list model: a list of rows is a 2-D
array exactly when it is non-empty and the rows agree in length (an empty
outer list has shape `(0,)`, a ragged one is a 1-D object array). -/
def ndim2 (v : List (List ℚ)) : Bool :=
  !v.isEmpty && v.all (fun r => r.length == (v.headD []).length)

/-- The persisted faiss `IndexFlatIP`: its dimensionality and the raw
vectors added to it. -/
structure FaissIndex where
  dim : Nat
  vectors : List (List ℚ)
deriving DecidableEq, Repr

/-- The two co-located artifacts of `LocalFaissVectorStore`
(`faiss.index` and `meta.json`); `none` = the file does not exist. -/
structure Disk where
  indexFile : Option FaissIndex := none
  metaFile : Option (List ChunkRecord) := none
deriving DecidableEq, Repr

/-- `LocalFaissVectorStore.save` from `backend/rag/vectors.py`: the two
shape checks raise (returning the error message, disk unchanged) before
anything is written; on success both artifacts are replaced. The float32
cast is the identity in this exact-rational model. -/
def LocalFaissVectorStore.save (disk : Disk) (vectors : List (List ℚ))
    (meta : List ChunkRecord) : Disk × Option String :=
  if ¬ ndim2 vectors then
    (disk, some "vectors must be 2D: shape (N, D)")
  else if meta.length ≠ vectors.length then
    (disk, some "meta length must match vectors rows")
  else
    ({ indexFile := some ⟨(vectors.headD []).length, vectors⟩,
       metaFile := some meta }, none)

/-- `LocalFaissVectorStore.load`: raises `FileNotFoundError` when either
artifact is absent. -/
def LocalFaissVectorStore.load (disk : Disk) :
    Except String (FaissIndex × List ChunkRecord) :=
  match disk.indexFile, disk.metaFile with
  | some idx, some meta => .ok (idx, meta)
  | _, _ => .error "Index not found."

/-- Exact inner product of two vectors (`zipWith` truncates at the shorter
operand, as numpy would reject mismatched shapes upstream). -/
def innerProduct (a b : List ℚ) : ℚ :=
  (List.zipWith (· * ·) a b).sum

/-- Stable insertion of a (score, index) pair into a score-descending
list. -/
def insertDesc (p : ℚ × Nat) : List (ℚ × Nat) → List (ℚ × Nat)
  | [] => [p]
  | q :: t => if q.1 < p.1 then p :: q :: t else q :: insertDesc p t

/-- Stable sort, best score first. -/
def sortDesc : List (ℚ × Nat) → List (ℚ × Nat)
  | [] => []
  | p :: t => insertDesc p (sortDesc t)

/-- faiss `IndexFlatIP.search` on one query: the exact inner products of
the query with every stored vector, the `k` best returned best-first
(fewer when the index holds fewer vectors; the `-1` padding faiss emits
past the end is exactly what the Python wrapper's loop filters out, so the
model returns the unpadded list). -/
def faissSearchIP (index : FaissIndex) (q : List ℚ) (k : Nat) :
    List (ℚ × Nat) :=
  (sortDesc (index.vectors.enum.map
    (fun iv => (innerProduct q iv.2, iv.1)))).take k

/-- `LocalFaissVectorStore.search` from `backend/rag/vectors.py`: loads
(propagating the missing-artifact error), searches, and pairs each score
with `meta[i]`. -/
def LocalFaissVectorStore.search (disk : Disk) (query_vec : List ℚ)
    (top_k : Nat) : Except String (List (ℚ × ChunkRecord)) := do
  let (index, meta) ← LocalFaissVectorStore.load disk
  let hits := faissSearchIP index query_vec top_k
  return hits.map (fun si => (si.1, meta.getD si.2 default))

/-- C7: the build fails whenever the vectors are not a consistent 2-D
array or the vector count differs from the passage count, and in that case
the disk state is returned untouched — neither artifact is created or
modified. -/
theorem save_shape_mismatch_aborts (disk : Disk) (vectors : List (List ℚ))
    (meta : List ChunkRecord)
    (h : ndim2 vectors = false ∨ meta.length ≠ vectors.length) :
    ∃ msg, LocalFaissVectorStore.save disk vectors meta = (disk, some msg) := by
  rcases h with h | h
  · exact ⟨"vectors must be 2D: shape (N, D)",
      by simp [LocalFaissVectorStore.save, h]⟩
  · by_cases hn : ndim2 vectors
    · exact ⟨"meta length must match vectors rows",
        by simp [LocalFaissVectorStore.save, hn, h]⟩
    · exact ⟨"vectors must be 2D: shape (N, D)",
        by simp [LocalFaissVectorStore.save, hn]⟩

/-- Witness for `save_shape_mismatch_aborts`: a ragged vector list and a
count mismatch, both aborting with the disk unchanged. -/
theorem save_shape_mismatch_aborts_witness :
    (∃ msg, LocalFaissVectorStore.save { } [[1], [2, 3]] []
      = ({ }, some msg)) ∧
    (∃ msg, LocalFaissVectorStore.save { } [[1, 2]] []
      = ({ }, some msg)) :=
  ⟨save_shape_mismatch_aborts { } [[1], [2, 3]] [] (Or.inl (by decide)),
   save_shape_mismatch_aborts { } [[1, 2]] [] (Or.inr (by decide))⟩

/-- C2 counterexample: on a cold (unbuilt) index, `search` does not return
an empty result list — it propagates `load`'s `FileNotFoundError`. -/
theorem search_cold_index_counterexample :
    LocalFaissVectorStore.search { indexFile := none, metaFile := none } [1] 5
      = Except.error "Index not found." ∧
    LocalFaissVectorStore.search { indexFile := none, metaFile := none } [1] 5
      ≠ Except.ok [] := by
  refine ⟨rfl, ?_⟩
  intro h
  rw [show LocalFaissVectorStore.search
      { indexFile := none, metaFile := none } [1] 5
      = Except.error "Index not found." from rfl] at h
  exact Except.noConfusion h

/-- C2 amended: for every query vector and every `k`, calling `search` when
either index artifact is absent raises (returns) the missing-index error —
`"Index not found."` — rather than returning any result list; the `/ask`
endpoint guards against this by checking that both artifact files exist
before retrieving. -/
theorem search_cold_index_errors (disk : Disk) (q : List ℚ) (k : Nat)
    (h : disk.indexFile = none ∨ disk.metaFile = none) :
    LocalFaissVectorStore.search disk q k = Except.error "Index not found." := by
  rcases disk with ⟨idx, meta⟩
  rcases h with h | h <;> subst h
  · rfl
  · cases idx <;> rfl

/-- Witness for `search_cold_index_errors` with only the metadata artifact
present. -/
theorem search_cold_index_errors_witness :
    LocalFaissVectorStore.search { metaFile := some [sampleRecord] } [1, 0] 3
      = Except.error "Index not found." :=
  search_cold_index_errors { metaFile := some [sampleRecord] } [1, 0] 3
    (Or.inl rfl)

/-- C3 counterexample: nothing L2-normalizes vectors on the ingest path:
`save` persists `[[2, 0]]` as-is, and searching with the unit query
`[1, 0]` returns the raw inner product `2`, outside `[-1, 1]`. -/
theorem vectors_not_normalized_counterexample :
    (LocalFaissVectorStore.save { } [[2, 0]] [sampleRecord]).2 = none ∧
    (LocalFaissVectorStore.save { } [[2, 0]] [sampleRecord]).1.indexFile
      = some ⟨2, [[2, 0]]⟩ ∧
    innerProduct [1, 0] [1, 0] = 1 ∧
    LocalFaissVectorStore.search
      (LocalFaissVectorStore.save { } [[2, 0]] [sampleRecord]).1 [1, 0] 1
      = Except.ok [(2, sampleRecord)] ∧
    ¬ ((2 : ℚ) ≤ 1) := by
  refine ⟨rfl, rfl, by norm_num [innerProduct], ?_, by decide⟩
  norm_num [LocalFaissVectorStore.search, LocalFaissVectorStore.save,
    LocalFaissVectorStore.load, faissSearchIP, innerProduct, sortDesc,
    insertDesc, ndim2, List.enum, List.enumFrom]

/-- Squared L2 norm. -/
def l2NormSq (v : List ℚ) : ℚ :=
  (v.map (fun x => x * x)).sum

theorem l2NormSq_nonneg (v : List ℚ) : 0 ≤ l2NormSq v := by
  induction v with
  | nil => simp [l2NormSq]
  | cons x t ih =>
    simp only [l2NormSq, List.map, List.sum_cons] at *
    nlinarith [sq_nonneg x]

/-- Cauchy–Schwarz for the truncating `zipWith` inner product. -/
theorem innerProduct_sq_le (a b : List ℚ) :
    innerProduct a b ^ 2 ≤ l2NormSq a * l2NormSq b := by
  induction a generalizing b with
  | nil => simp [innerProduct, l2NormSq]
  | cons x as ih =>
    cases b with
    | nil => simp [innerProduct, l2NormSq]
    | cons y bs =>
      have h := ih bs
      have hA := l2NormSq_nonneg as
      have hB := l2NormSq_nonneg bs
      simp only [innerProduct, l2NormSq, List.zipWith, List.map,
        List.sum_cons] at *
      rcases eq_or_lt_of_le hB with hB0 | hBpos
      · have hS2 : (List.zipWith (fun x y => x * y) as bs).sum ^ 2 = 0 :=
          le_antisymm (by nlinarith) (sq_nonneg _)
        have hS0 : (List.zipWith (fun x y => x * y) as bs).sum = 0 :=
          sq_eq_zero_iff.mp hS2
        rw [hS0, ← hB0]
        nlinarith [mul_nonneg (mul_self_nonneg y) hA]
      · nlinarith [sq_nonneg (x * (bs.map (fun x => x * x)).sum -
          y * (List.zipWith (fun x y => x * y) as bs).sum),
          mul_nonneg (add_nonneg (sq_nonneg y) hB) (sub_nonneg.mpr h)]

theorem insertDesc_mem (p q : ℚ × Nat) (l : List (ℚ × Nat)) :
    q ∈ insertDesc p l → q = p ∨ q ∈ l := by
  induction l with
  | nil =>
    intro h
    rw [show insertDesc p [] = [p] from rfl] at h
    exact Or.inl (List.mem_singleton.mp h)
  | cons r t ih =>
    intro h
    by_cases hc : r.1 < p.1
    · have he : insertDesc p (r :: t) = p :: r :: t := by
        simp [insertDesc, hc]
      rw [he] at h
      rcases List.mem_cons.mp h with h1 | h1
      · exact Or.inl h1
      · exact Or.inr h1
    · have he : insertDesc p (r :: t) = r :: insertDesc p t := by
        simp [insertDesc, hc]
      rw [he] at h
      rcases List.mem_cons.mp h with h1 | h1
      · exact Or.inr (h1 ▸ List.mem_cons_self r t)
      · rcases ih h1 with h2 | h2
        · exact Or.inl h2
        · exact Or.inr (List.mem_cons_of_mem r h2)

theorem sortDesc_mem (l : List (ℚ × Nat)) (q : ℚ × Nat) :
    q ∈ sortDesc l → q ∈ l := by
  induction l with
  | nil => intro h; simp [sortDesc] at h
  | cons p t ih =>
    intro h
    rcases insertDesc_mem p q (sortDesc t) h with h1 | h1
    · exact h1 ▸ List.mem_cons_self p t
    · exact List.mem_cons_of_mem p (ih h1)

/-- C3 amended: vectors are persisted exactly as supplied — nothing on the
build path L2-normalizes them (see the counterexample), so search scores
are raw inner products. When the caller does store unit vectors and the
query is a unit vector, every returned score lies in `[-1, 1]`
(Cauchy–Schwarz). -/
theorem search_unit_scores_bounded (disk : Disk) (q : List ℚ) (k : Nat)
    (res : List (ℚ × ChunkRecord))
    (hunit : ∀ idx, disk.indexFile = some idx →
      ∀ v ∈ idx.vectors, l2NormSq v = 1)
    (hq : l2NormSq q = 1)
    (hres : LocalFaissVectorStore.search disk q k = Except.ok res) :
    ∀ p ∈ res, -1 ≤ p.1 ∧ p.1 ≤ 1 := by
  intro p hp
  rcases disk with ⟨idxf, metaf⟩
  cases idxf with
  | none => exact absurd hres (by simp [LocalFaissVectorStore.search,
      LocalFaissVectorStore.load])
  | some idx =>
    cases metaf with
    | none => exact absurd hres (by simp [LocalFaissVectorStore.search,
        LocalFaissVectorStore.load])
    | some meta =>
      have hres' : (faissSearchIP idx q k).map
          (fun si => (si.1, meta.getD si.2 default)) = res := by
        have : LocalFaissVectorStore.search
            { indexFile := some idx, metaFile := some meta } q k
            = Except.ok ((faissSearchIP idx q k).map
              (fun si => (si.1, meta.getD si.2 default))) := rfl
        rw [this] at hres
        exact Except.ok.inj hres
      rw [← hres'] at hp
      rcases List.mem_map.mp hp with ⟨si, hsi, rfl⟩
      have hsort : si ∈ sortDesc (idx.vectors.enum.map
          (fun iv => (innerProduct q iv.2, iv.1))) :=
        List.mem_of_mem_take hsi
      have hscored := sortDesc_mem _ si hsort
      rcases List.mem_map.mp hscored with ⟨iv, hiv, rfl⟩
      have hv : iv.2 ∈ idx.vectors :=
        List.getElem?_mem (List.mem_enum_iff_getElem?.mp hiv)
      have hvn : l2NormSq iv.2 = 1 := hunit idx rfl iv.2 hv
      have hcs := innerProduct_sq_le q iv.2
      rw [hq, hvn, one_mul] at hcs
      constructor
      · nlinarith [hcs]
      · nlinarith [hcs]

/-- Witness for `search_unit_scores_bounded`: a stored unit vector and a
unit query; the returned score `1` is inside `[-1, 1]`. -/
theorem search_unit_scores_bounded_witness :
    LocalFaissVectorStore.search
      (LocalFaissVectorStore.save { } [[1, 0]] [sampleRecord]).1 [1, 0] 1
      = Except.ok [(1, sampleRecord)] ∧
    (-1 ≤ (((1 : ℚ), sampleRecord)).1 ∧ (((1 : ℚ), sampleRecord)).1 ≤ 1) := by
  have hsearch : LocalFaissVectorStore.search
      (LocalFaissVectorStore.save { } [[1, 0]] [sampleRecord]).1 [1, 0] 1
      = Except.ok [(1, sampleRecord)] := by
    norm_num [LocalFaissVectorStore.search, LocalFaissVectorStore.save,
      LocalFaissVectorStore.load, faissSearchIP, innerProduct, sortDesc,
      insertDesc, ndim2, List.enum, List.enumFrom]
  refine ⟨hsearch, ?_⟩
  refine search_unit_scores_bounded
    (LocalFaissVectorStore.save { } [[1, 0]] [sampleRecord]).1 [1, 0] 1
    [(1, sampleRecord)] ?_ (by norm_num [l2NormSq]) hsearch
    ((1 : ℚ), sampleRecord) (by simp)
  intro idx hidx v hv
  have hidx' : idx = ⟨2, [[1, 0]]⟩ := by
    rw [show (LocalFaissVectorStore.save { } [[1, 0]] [sampleRecord]).1.indexFile
      = some ⟨2, [[1, 0]]⟩ from rfl] at hidx
    exact (Option.some.inj hidx).symm
  subst hidx'
  have : v = [1, 0] := by simpa using hv
  subst this
  norm_num [l2NormSq]

/-- Python `raw.split(",")` on character data: splits at every comma and
keeps empty pieces. -/
def splitOnComma (l : List Char) : List (List Char) :=
  go l []
where
  go : List Char → List Char → List (List Char)
    | [], acc => [acc.reverse]
    | c :: t, acc => if c == ',' then acc.reverse :: go t [] else go t (c :: acc)

/-- Numeric value of an all-digit string (what Python `int` computes once
`isdigit` has accepted it). -/
def digitsToNat (l : List Char) : Nat :=
  l.foldl (fun n c => 10 * n + (c.toNat - '0'.toNat)) 0

/-- `[int(x.strip()) - 1 for x in raw.split(",") if x.strip().isdigit()]`
from `_llm_rerank`: 1-based indices become 0-based; `"0"` becomes `-1`. -/
def parseOrder (raw : List Char) : List Int :=
  (splitOnComma raw).filterMap (fun x =>
    let s := pyStripL x
    if s ≠ [] ∧ s.all Char.isDigit then some ((digitsToNat s : Int) - 1)
    else none)

/-- The in-range parsed indices kept by
`[trimmed[i] for i in order if 0 <= i < len(trimmed)]`. -/
def rerankKept (content : String) (len : Nat) : List Nat :=
  (parseOrder (pyStripL content.data)).filterMap (fun i =>
    if 0 ≤ i ∧ i < (len : Int) then some i.toNat else none)

/-- `_llm_rerank` from `backend/rag/retrieve.py`. The judgment-service call
is the `resp` argument: `.error` is any exception in the `try` block
(fail-open), `.ok content` is `resp.choices[0].message.content or ""`.
Python's `seen` set holds object identities; the candidates are freshly
constructed, pairwise-distinct objects, so identity coincides with
position in `trimmed` and the model works on positions. -/
def _llm_rerank (resp : Except Unit String) (candidates : List Candidate)
    (max_candidates : Nat := 12) : List Candidate :=
  let trimmed := candidates.take max_candidates
  if trimmed.isEmpty then candidates
  else
    match resp with
    | .error _ => candidates
    | .ok content =>
      let kept := rerankKept content trimmed.length
      let ranked := kept.map (fun i => trimmed.getD i default)
      let missing := (List.range trimmed.length).filter
        (fun i => !(kept.contains i))
      (ranked ++ missing.map (fun i => trimmed.getD i default))
        ++ candidates.drop max_candidates

theorem range_map_getD (l : List Candidate) :
    (List.range l.length).map (fun i => l.getD i default) = l := by
  induction l with
  | nil => rfl
  | cons a t ih =>
    rw [List.length_cons, List.range_succ_eq_map, List.map_cons,
      List.map_map]
    have : ((fun i => (a :: t).getD i default) ∘ Nat.succ)
        = (fun i => t.getD i default) := by
      funext i; rfl
    rw [this, ih]
    rfl

theorem rerankKept_lt (content : String) (len : Nat) :
    ∀ i ∈ rerankKept content len, i < len := by
  intro i hi
  simp only [rerankKept, List.mem_filterMap] at hi
  rcases hi with ⟨j, hj, hjeq⟩
  by_cases hc : 0 ≤ j ∧ j < (len : Int)
  · rw [if_pos hc] at hjeq
    have := Option.some.inj hjeq
    omega
  · rw [if_neg hc] at hjeq
    exact Option.noConfusion hjeq

theorem kept_append_missing_perm (kept : List Nat) (len : Nat)
    (hnd : kept.Nodup) (hlt : ∀ i ∈ kept, i < len) :
    (kept ++ (List.range len).filter (fun i => !(kept.contains i))).Perm
      (List.range len) := by
  have hmemc : ∀ i : Nat, kept.contains i = true ↔ i ∈ kept := by
    intro i
    constructor
    · exact List.mem_of_elem_eq_true
    · exact List.elem_eq_true_of_mem
  have hndf : ((List.range len).filter (fun i => !(kept.contains i))).Nodup :=
    (List.nodup_range len).filter _
  have hdisj : kept.Disjoint
      ((List.range len).filter (fun i => !(kept.contains i))) := by
    intro a ha haf
    have := (List.mem_filter.mp haf).2
    rw [Bool.not_eq_true', ← Bool.not_eq_true] at this
    exact this ((hmemc a).mpr ha)
  refine (List.perm_ext_iff_of_nodup (hnd.append hndf hdisj)
    (List.nodup_range len)).mpr ?_
  intro a
  constructor
  · intro ha
    rcases List.mem_append.mp ha with h | h
    · exact List.mem_range.mpr (hlt a h)
    · exact (List.mem_filter.mp h).1
  · intro ha
    by_cases hk : a ∈ kept
    · exact List.mem_append.mpr (Or.inl hk)
    · refine List.mem_append.mpr (Or.inr (List.mem_filter.mpr ⟨ha, ?_⟩))
      rw [Bool.not_eq_eq_eq_not, Bool.not_true, ← Bool.not_eq_true]
      intro hc
      exact hk ((hmemc a).mp hc)

/-- C4 amended: the reranker fails open — on any service failure it
returns the input ordering unchanged — and whenever the parsed in-range
index list contains no duplicate, its output is a permutation of its
input. (A response with a repeated index, e.g. `"1,1"`, duplicates that
candidate — see the counterexample — so the permutation claim needs the
no-duplicate proviso; omitted top-N candidates are appended in original
order and candidates beyond N are untouched in every case.) -/
theorem llm_rerank_spec (resp : Except Unit String)
    (candidates : List Candidate) (N : Nat) :
    (∀ e, resp = Except.error e → _llm_rerank resp candidates N = candidates) ∧
    (∀ content, resp = Except.ok content →
      (rerankKept content (candidates.take N).length).Nodup →
      (_llm_rerank resp candidates N).Perm candidates) := by
  constructor
  · intro e he
    subst he
    unfold _llm_rerank
    by_cases h : (candidates.take N).isEmpty <;> simp [h]
  · intro content hc hnd
    subst hc
    by_cases h : (candidates.take N).isEmpty
    · unfold _llm_rerank
      simp only [h, if_true]
      exact List.Perm.refl _
    · have hout : _llm_rerank (Except.ok content) candidates N =
          ((rerankKept content (candidates.take N).length).map
            (fun i => (candidates.take N).getD i default) ++
          ((List.range (candidates.take N).length).filter
            (fun i => !((rerankKept content (candidates.take N).length).contains i))).map
            (fun i => (candidates.take N).getD i default))
          ++ candidates.drop N := by
        unfold _llm_rerank
        simp only [h, Bool.false_eq_true, if_false]
      rw [hout, ← List.map_append]
      have hperm := kept_append_missing_perm
        (rerankKept content (candidates.take N).length)
        (candidates.take N).length hnd
        (rerankKept_lt content (candidates.take N).length)
      have hmapped := hperm.map (fun i => (candidates.take N).getD i default)
      rw [range_map_getD (candidates.take N)] at hmapped
      have hfinal := hmapped.append_right (candidates.drop N)
      rw [List.take_append_drop] at hfinal
      exact hfinal

/-- A second distinct concrete candidate. -/
def candB : Candidate :=
  { record := { sampleRecord with chunk_id := "c2", source_id := "s2" } }

/-- C4 counterexample: the service response `"1,1"` repeats index 1, and
the reranker emits the first candidate twice — a three-element output from
a two-element input is not a permutation of it. -/
theorem llm_rerank_counterexample :
    _llm_rerank (Except.ok "1,1") [sampleCandidate, candB] 12
      = [sampleCandidate, sampleCandidate, candB] ∧
    ¬ (_llm_rerank (Except.ok "1,1") [sampleCandidate, candB] 12).Perm
      [sampleCandidate, candB] := by
  refine ⟨by decide, by decide⟩

/-- Witness for `llm_rerank_spec`: a failing call returns the input
unchanged, and the well-formed response `"2,1"` yields a permutation. -/
theorem llm_rerank_spec_witness :
    _llm_rerank (Except.error ()) [sampleCandidate, candB] 12
      = [sampleCandidate, candB] ∧
    (_llm_rerank (Except.ok "2,1") [sampleCandidate, candB] 12).Perm
      [sampleCandidate, candB] :=
  ⟨(llm_rerank_spec (Except.error ()) [sampleCandidate, candB] 12).1 () rfl,
   (llm_rerank_spec (Except.ok "2,1") [sampleCandidate, candB] 12).2
     "2,1" rfl (by decide)⟩

/-- The (start, stop) spans of the slices the `while` loop of
`_chunk_with_overlap` (backend/rag/chunking.py) emits for a text of length
`n`: `end = min(start + chunk_size, n)`, emit `text[start:end]`, stop when
`end >= n`, else continue from `max(0, end - overlap)` (truncated
subtraction). `fuel` bounds the iterations: the Python loop terminates
only when `overlap < chunk_size`, and then `n + 1` steps are plenty, since
`start` strictly increases each round. -/
def chunkSpans (fuel : Nat) (n C O : Nat) : Nat → List (Nat × Nat)
  | start =>
    match fuel with
    | 0 => []
    | fuel + 1 =>
      if start < n then
        (start, min (start + C) n) ::
          (if n ≤ min (start + C) n then []
           else chunkSpans fuel n C O (min (start + C) n - O))
      else []

/-- `_chunk_with_overlap(text, chunk_size, overlap)`: a text no longer
than `chunk_size` is returned whole; otherwise the loop's spans are
sliced out of the text. -/
def _chunk_with_overlap (text : List Char) (chunk_size overlap : Nat) :
    List (List Char) :=
  if text.length ≤ chunk_size then [text]
  else (chunkSpans (text.length + 1) text.length chunk_size overlap 0).map
    (fun se => (text.drop se.1).take (se.2 - se.1))

theorem chunkSpans_head_fst (n C O : Nat) :
    ∀ (f t : Nat) (b : Nat × Nat),
      b ∈ (chunkSpans f n C O t).head? → b.1 = t := by
  intro f t b hb
  cases f with
  | zero => simp [chunkSpans] at hb
  | succ f =>
    by_cases ht : t < n
    · simp only [chunkSpans, ht, if_true, List.head?_cons,
        Option.mem_def, Option.some.injEq] at hb
      rw [← hb]
    · simp [chunkSpans, ht] at hb

theorem chunkSpans_chain (n C O : Nat) (hOC : O < C) :
    ∀ (fuel s : Nat), List.Chain' (fun a b => b.1 + O ≤ a.2)
      (chunkSpans fuel n C O s) := by
  intro fuel
  induction fuel with
  | zero => intro s; simp [chunkSpans]
  | succ f ih =>
    intro s
    by_cases hs : s < n
    · simp only [chunkSpans, hs, if_true]
      by_cases he : n ≤ min (s + C) n
      · simp [he]
      · simp only [he, if_false]
        refine List.chain'_cons'.mpr ⟨?_, ih (min (s + C) n - O)⟩
        intro b hb
        have hb1 := chunkSpans_head_fst n C O f (min (s + C) n - O) b hb
        have hen : min (s + C) n < n := lt_of_not_le he
        have heC : min (s + C) n = s + C := by omega
        omega
    · simp [chunkSpans, hs]

theorem chunkSpans_cover (n C O : Nat) (hOC : O < C) :
    ∀ (fuel s p : Nat), s ≤ p → p < n → n - s ≤ fuel →
      ∃ se ∈ chunkSpans fuel n C O s, se.1 ≤ p ∧ p < se.2 := by
  intro fuel
  induction fuel with
  | zero => intro s p hsp hpn hf; omega
  | succ f ih =>
    intro s p hsp hpn hf
    have hs : s < n := lt_of_le_of_lt hsp hpn
    simp only [chunkSpans, hs, if_true]
    by_cases hpe : p < min (s + C) n
    · exact ⟨(s, min (s + C) n), List.mem_cons_self _ _, hsp, hpe⟩
    · have hen : min (s + C) n < n :=
        lt_of_le_of_lt (le_of_not_lt hpe) hpn
      have hnotle : ¬ n ≤ min (s + C) n := not_le.mpr hen
      simp only [hnotle, if_false]
      have heC : min (s + C) n = s + C := by omega
      rcases ih (min (s + C) n - O) p (by omega) hpn (by omega)
        with ⟨se, hmem, hse⟩
      exact ⟨se, List.mem_cons_of_mem _ hmem, hse⟩

/-- C5: for every non-empty text, chunk size `C` and overlap `O < C`, the
chunks are slices of the text along a span list in which each span after
the first starts no later than the previous span's end minus `O`
(`b.1 + O ≤ a.2`), and every character position of the text is covered by
at least one span — no position is skipped. -/
theorem chunk_with_overlap_spec (text : List Char) (C O : Nat)
    (hOC : O < C) (_hne : text ≠ []) :
    ∃ spans : List (Nat × Nat),
      _chunk_with_overlap text C O =
        spans.map (fun se => (text.drop se.1).take (se.2 - se.1)) ∧
      List.Chain' (fun a b => b.1 + O ≤ a.2) spans ∧
      ∀ p < text.length, ∃ se ∈ spans, se.1 ≤ p ∧ p < se.2 := by
  by_cases hlen : text.length ≤ C
  · refine ⟨[(0, text.length)], ?_, ?_, ?_⟩
    · simp [_chunk_with_overlap, hlen]
    · simp
    · intro p hp
      exact ⟨(0, text.length), List.mem_singleton.mpr rfl, Nat.zero_le p, hp⟩
  · refine ⟨chunkSpans (text.length + 1) text.length C O 0, ?_, ?_, ?_⟩
    · simp [_chunk_with_overlap, hlen]
    · exact chunkSpans_chain text.length C O hOC (text.length + 1) 0
    · intro p hp
      exact chunkSpans_cover text.length C O hOC (text.length + 1) 0 p
        (Nat.zero_le p) hp (by omega)

/-- Witness for `chunk_with_overlap_spec` on `"abcde"` with `C = 3`,
`O = 1` (chunks `"abc"`, `"cde"`). -/
theorem chunk_with_overlap_spec_witness :
    ∃ spans : List (Nat × Nat),
      _chunk_with_overlap "abcde".data 3 1 =
        spans.map (fun se => ("abcde".data.drop se.1).take (se.2 - se.1)) ∧
      List.Chain' (fun a b => b.1 + 1 ≤ a.2) spans ∧
      ∀ p < "abcde".data.length, ∃ se ∈ spans, se.1 ≤ p ∧ p < se.2 :=
  chunk_with_overlap_spec "abcde".data 3 1 (by decide) (by decide)
